import Mathlib

/-!
Verification of the semantic-search utility: a shallow embedding of the
index-build pipeline (index_build.py), the CLI query loop (search.py) and
the web app glue (app.py), together with theorems settling the frozen
claims about the VectorStore core.

Numeric modelling: embedding components and inner-product scores are
modelled exactly as integers (the claims under verification are
structural, about ordering, tie-breaking, padding, row counts and
round-trips, not about floating-point rounding).  The search kernel is
the external faiss IndexFlatIP: the repository only calls it, so the
kernel is modelled from its documented contract (exact inner-product
scan, results ordered by descending score with deterministic ties, and,
when k exceeds the number of stored rows, the remaining slots padded
with label -1 and the sentinel score that fills an unused heap slot).
The sentence-transformers embedder is likewise external and appears as
an abstract function from texts to vectors.
-/

/-- Python whitespace predicate used by str.strip and str.split. -/
def isPySpace (c : Char) : Bool :=
  c == ' ' || c == '\t' || c == '\n' || c == '\r' ||
    c == Char.ofNat 11 || c == Char.ofNat 12

/-- Python str.strip with no arguments: drop leading and trailing whitespace. -/
def pyStrip (s : String) : String :=
  ⟨((s.data.dropWhile isPySpace).reverse.dropWhile isPySpace).reverse⟩

/-- Python str.lower restricted to the alphabet the CLI compares against. -/
def pyLower (s : String) : String :=
  ⟨s.data.map Char.toLower⟩

/-- Helper for pySplit: walk the characters, accumulating the current word. -/
def pySplitAux : List Char → List Char → List (List Char)
  | [], [] => []
  | [], cur => [cur.reverse]
  | c :: cs, cur =>
    if isPySpace c then
      match cur with
      | [] => pySplitAux cs []
      | _ :: _ => cur.reverse :: pySplitAux cs []
    else
      pySplitAux cs (c :: cur)

/-- Python str.split with no arguments: split on whitespace runs, dropping
empty pieces. -/
def pySplit (s : String) : List (List Char) :=
  pySplitAux s.data []

/-- Python " ".join over a list of words, at the character level. -/
def joinWords : List (List Char) → List Char
  | [] => []
  | [w] => w
  | w :: ws => w ++ ' ' :: joinWords ws

/-- app.py, snippet: collapse whitespace runs to single spaces via
a space-join of str.split, truncate to n characters with an ellipsis
when the collapsed text is longer than n.  Python len and slicing count
characters, so both are modelled on the character list. -/
def snippet (text : String) (n : Nat) : String :=
  let t := joinWords (pySplit (pyStrip text))
  if t.length ≤ n then ⟨t⟩ else ⟨t.take n⟩ ++ "…"

/-- app.py calls snippet with its default preview length of 280. -/
def appPreview (text : String) : String :=
  snippet text 280

/-- The preview transformation as the specification words it: collapse
internal whitespace runs to single spaces, and when the collapsed text
exceeds n characters truncate to the first n and append an ellipsis
marker, appending no marker otherwise. -/
def specPreview (n : Nat) (text : String) : String :=
  let t := joinWords (pySplit text)
  if t.length ≤ n then ⟨t⟩ else ⟨t.take n⟩ ++ "…"

/-- search.py, result rendering: slice the raw document text to 160
characters and append three dots when the raw text is longer than 160. -/
def cliPreview (text : String) : String :=
  ⟨text.data.take 160⟩ ++ (if 160 < text.data.length then "..." else "")

/-- What one iteration of the search.py query loop does with the raw
input line before any embedding happens. -/
inductive QueryAction where
  | exitLoop : QueryAction
  | search : String → QueryAction
deriving DecidableEq

/-- search.py query loop: strip the input, leave the loop on exit or
quit (lowercased), otherwise embed the stripped text and search. -/
def cliStep (raw : String) : QueryAction :=
  let query := pyStrip raw
  if pyLower query = "exit" ∨ pyLower query = "quit" then
    QueryAction.exitLoop
  else
    QueryAction.search query

/-- app.py query gate: streamlit hands back the raw text box content and
the app embeds it, unstripped, whenever it is a nonempty string. -/
def appQuery (raw : String) : Option String :=
  if raw = "" then none else some raw

/-- Python list indexing docs[i] with negative-index wraparound:
a negative index counts from the end, an out-of-range index is an error
(returned as none). -/
def pyGetItem (l : List String) (i : Int) : Option String :=
  let j : Int := if i < 0 then (l.length : Int) + i else i
  if 0 ≤ j then l.get? j.toNat else none

/-- A similarity score as it sits in a faiss result slot: either a real
inner product or the sentinel that fills a result slot no stored row was
assigned to (faiss initialises its best-k heap with the lowest possible
similarity). -/
inductive Score where
  | negInf : Score
  | val : Int → Score
deriving DecidableEq

/-- Strict order on scores: the sentinel is below every inner product. -/
def Score.slt : Score → Score → Prop
  | _, Score.negInf => False
  | Score.negInf, Score.val _ => True
  | Score.val x, Score.val y => x < y

instance (a b : Score) : Decidable (Score.slt a b) := by
  cases a <;> cases b <;> simp only [Score.slt] <;> infer_instance

/-- One row of the (scores, ids) pair returned by faiss Index.search. -/
structure Hit where
  score : Score
  id : Int
deriving DecidableEq

/-- The padding slot faiss returns when fewer than k rows exist:
label -1, sentinel score. -/
def padHit : Hit := ⟨Score.negInf, -1⟩

/-- Ranking order on hits: higher score first, then lower row id first. -/
def hitLE (a b : Hit) : Prop :=
  Score.slt b.score a.score ∨ (a.score = b.score ∧ a.id ≤ b.id)

instance (a b : Hit) : Decidable (hitLE a b) := by
  unfold hitLE; infer_instance

/-- The strict version of the ranking order: strictly larger score, or
equal score and strictly smaller row id. -/
def hitLT (a b : Hit) : Prop :=
  Score.slt b.score a.score ∨ (a.score = b.score ∧ a.id < b.id)

instance (a b : Hit) : Decidable (hitLT a b) := by
  unfold hitLT; infer_instance

/-- Exact inner product of two vectors, componentwise over the common
length, as IndexFlatIP scores a stored row against the query. -/
def dot (q v : List Int) : Int :=
  (List.zipWith (· * ·) q v).sum

/-- Every stored row scored against the query, tagged with its row id. -/
def enumHits (xb : List (List Int)) (q : List Int) : List Hit :=
  xb.enum.map (fun p => ⟨Score.val (dot q p.2), (p.1 : Int)⟩)

/-- Modelled from the documented contract of the external faiss
IndexFlatIP search kernel (the repository only calls it): an exact scan
scores every stored row, results come back ordered by descending score
with ties broken deterministically towards the lower row id, and when k
exceeds the number of stored rows the remaining slots are padding with
label -1 and the sentinel score. -/
def faissSearch (xb : List (List Int)) (q : List Int) (k : Nat) : List Hit :=
  (List.insertionSort hitLE (enumHits xb q)).take k ++
    List.replicate (k - xb.length) padHit

/-- os.path.basename for the forward-slash paths glob produces: the
characters after the last slash. -/
def pyBasename (p : String) : String :=
  ⟨(p.data.reverse.takeWhile (fun c => c ≠ '/')).reverse⟩

/-- The two ways index_build.py aborts (each a SystemExit in the source):
no .txt file listed, or every listed file empty after stripping. -/
inductive BuildError where
  | noTxtFiles : BuildError
  | emptyDocs : BuildError
deriving DecidableEq

/-- The in-memory outcome of a successful build: the IndexFlatIP rows in
insertion order, the parallel stripped document texts from docs.json and
the parallel source basenames from meta.json. -/
structure BuildOutput where
  index : List (List Int)
  docs : List String
  meta : List String
deriving DecidableEq

/-- Lexicographic comparison of character lists by code point, the order
Python sorted uses on the path strings. -/
def lexLeB : List Char → List Char → Bool
  | [], _ => true
  | _ :: _, [] => false
  | c :: cs, d :: ds =>
    if c.toNat = d.toNat then lexLeB cs ds
    else decide (c.toNat < d.toNat)

/-- Ordering of the glob listing: sorted compares the path strings. -/
def pathLE (a b : String × String) : Prop :=
  lexLeB a.1.data b.1.data = true

instance (a b : String × String) : Decidable (pathLE a b) := by
  unfold pathLE; infer_instance

/-- The body of the read loop in index_build.py main for one file: read,
strip, keep the stripped text with the basename as source when nonempty,
skip the file otherwise. -/
def keepFile (pc : String × String) : Option (String × String) :=
  if pyStrip pc.2 = "" then none else some (pyStrip pc.2, pyBasename pc.1)

/-- index_build.py main, up to persistence.  The corpus directory is the
glob result: (path, content) pairs in whatever order glob yields them.
Paths are sorted, an empty listing aborts, each file is read, stripped
and kept or skipped by keepFile, zero surviving documents aborts, and
the surviving texts go to the embedder in one batch. -/
def buildIndex (embed : List String → List (List Int))
    (files : List (String × String)) : Except BuildError BuildOutput :=
  if (List.insertionSort pathLE files).isEmpty then
    Except.error BuildError.noTxtFiles
  else if ((List.insertionSort pathLE files).filterMap keepFile).isEmpty then
    Except.error BuildError.emptyDocs
  else
    Except.ok
      ⟨embed (((List.insertionSort pathLE files).filterMap keepFile).map
          Prod.fst),
        ((List.insertionSort pathLE files).filterMap keepFile).map Prod.fst,
        ((List.insertionSort pathLE files).filterMap keepFile).map Prod.snd⟩

/-- How many listed files the build skipped as empty after stripping. -/
def skippedCount (files : List (String × String)) : Nat :=
  files.countP (fun pc => pyStrip pc.2 = "")

/-- The serialized faiss.index artifact: faiss.write_index stores the
dimension, the row count and the row-major flat data. -/
structure IndexFile where
  dim : Nat
  ntotal : Nat
  data : List Int
deriving DecidableEq

/-- The dimension embeddings.shape[1] of the row matrix. -/
def matrixDim (rows : List (List Int)) : Nat :=
  (rows.head?.map List.length).getD 0

/-- faiss.write_index on an IndexFlatIP holding the given rows. -/
def encodeIndex (rows : List (List Int)) : IndexFile :=
  ⟨matrixDim rows, rows.length, rows.flatten⟩

/-- Cut a row-major flat list back into n rows of d entries. -/
def unflatten (d : Nat) : Nat → List Int → List (List Int)
  | 0, _ => []
  | n + 1, l => l.take d :: unflatten d n (l.drop d)

/-- faiss.read_index: rebuild the row matrix from the stored artifact,
with no renormalization and no reordering. -/
def decodeIndex (f : IndexFile) : List (List Int) :=
  unflatten f.dim f.ntotal f.data

/-- What the artifacts directory holds at some moment: each of the three
co-located files is either present (with parsed content) or absent. -/
structure ArtifactLoc where
  indexFile : Option IndexFile
  docsFile : Option (List String)
  metaFile : Option (List String)
deriving DecidableEq

/-- An artifacts directory with none of the three files present. -/
def emptyLoc : ArtifactLoc := ⟨none, none, none⟩

/-- The artifacts directory after a fully completed persist. -/
def fullLoc (out : BuildOutput) : ArtifactLoc :=
  ⟨some (encodeIndex out.index), some out.docs, some out.meta⟩

/-- index_build.py persists by three sequential in-place writes into the
output directory, in source order: faiss.index, then docs.json, then
meta.json.  This is every state the artifacts directory passes through,
starting from an empty directory. -/
def persistTrace (out : BuildOutput) : List ArtifactLoc :=
  [emptyLoc,
   ⟨some (encodeIndex out.index), none, none⟩,
   ⟨some (encodeIndex out.index), some out.docs, none⟩,
   fullLoc out]

/-- The artifacts directory observable after the first w writes of the
persist sequence succeed and the build then stops. -/
def afterWrites (out : BuildOutput) (w : Nat) : ArtifactLoc :=
  (persistTrace out).getD (min w 3) emptyLoc

/-- Load failure: an open or read of an absent artifact raises. -/
inductive LoadError where
  | missingFile : LoadError
deriving DecidableEq

/-- app.py load_data: read all three artifacts and hand them back as a
triple, with no row-count validation of any kind. -/
def appLoad (loc : ArtifactLoc) : Except LoadError BuildOutput :=
  match loc.indexFile, loc.docsFile, loc.metaFile with
  | some f, some docs, some meta => Except.ok ⟨decodeIndex f, docs, meta⟩
  | _, _, _ => Except.error LoadError.missingFile

/-- search.py main: read only faiss.index and docs.json; meta.json is
never opened by the CLI. -/
def cliLoad (loc : ArtifactLoc) : Except LoadError (List (List Int) × List String) :=
  match loc.indexFile, loc.docsFile with
  | some f, some docs => Except.ok (decodeIndex f, docs)
  | _, _ => Except.error LoadError.missingFile

/-- search.py result loop: the CLI always asks faiss for k = 3 and
renders docs[idx] for every returned id, padding ids included. -/
def cliRendered (xb : List (List Int)) (docs : List String)
    (q : List Int) : List (Option String) :=
  (faissSearch xb q 3).map (fun h => (pyGetItem docs h.id).map cliPreview)

/-- app.py result loop: render the preview of docs[idx] for every id
faiss returned for the chosen top_k. -/
def appRendered (store : BuildOutput) (q : List Int) (k : Nat) :
    List (Option String) :=
  (faissSearch store.index q k).map
    (fun h => (pyGetItem store.docs h.id).map appPreview)

/-- Displaying results reads the document list and leaves it unchanged:
the store the presentation layer hands back is the store it was given. -/
def displayStep (store : BuildOutput) (q : List Int) (k : Nat) :
    List (Option String) × BuildOutput :=
  (appRendered store q k, store)

/-- Two adjacent characters are never both whitespace: what it means for
whitespace runs to have been collapsed. -/
def noTwoSpaces (a b : Char) : Prop :=
  ¬(isPySpace a = true ∧ isPySpace b = true)

instance (a b : Char) : Decidable (noTwoSpaces a b) := by
  unfold noTwoSpaces; infer_instance

instance : IsTotal Hit hitLE :=
  ⟨fun a b => by
    rcases a with ⟨sa, ia⟩
    rcases b with ⟨sb, ib⟩
    cases sa <;> cases sb <;> simp [hitLE, Score.slt] <;> omega⟩

instance : IsTrans Hit hitLE :=
  ⟨fun a b c hab hbc => by
    rcases a with ⟨sa, ia⟩
    rcases b with ⟨sb, ib⟩
    rcases c with ⟨sc, ic⟩
    cases sa <;> cases sb <;> cases sc <;>
      simp_all [hitLE, Score.slt] <;> omega⟩

instance : IsTotal (String × String) pathLE :=
  ⟨fun a b => by
    unfold pathLE
    generalize a.1.data = xs
    generalize b.1.data = ys
    induction xs generalizing ys with
    | nil => left; rfl
    | cons c cs ih =>
      cases ys with
      | nil => right; rfl
      | cons d ds =>
        by_cases h : c.toNat = d.toNat
        · rcases ih ds with h2 | h2
          · left
            simp only [lexLeB, if_pos h]
            exact h2
          · right
            simp only [lexLeB, if_pos h.symm]
            exact h2
        · rcases Nat.lt_or_ge c.toNat d.toNat with h2 | h2
          · left
            simp only [lexLeB, if_neg h]
            exact decide_eq_true h2
          · right
            simp only [lexLeB,
              if_neg (show ¬ d.toNat = c.toNat from by omega)]
            exact decide_eq_true (show d.toNat < c.toNat from by omega)⟩

instance : IsTrans (String × String) pathLE :=
  ⟨fun a b c hab hbc => by
    unfold pathLE at hab hbc ⊢
    revert hab hbc
    generalize a.1.data = xs
    generalize b.1.data = ys
    generalize c.1.data = zs
    revert ys zs
    induction xs with
    | nil => intro ys zs _ _; rfl
    | cons x xs2 ih =>
      intro ys zs h1 h2
      cases ys with
      | nil => exact absurd h1 (by simp [lexLeB])
      | cons y ys2 =>
        cases zs with
        | nil => exact absurd h2 (by simp [lexLeB])
        | cons z zs2 =>
          simp only [lexLeB] at h1 h2 ⊢
          by_cases hxy : x.toNat = y.toNat
          · rw [if_pos hxy] at h1
            by_cases hyz : y.toNat = z.toNat
            · rw [if_pos hyz] at h2
              rw [if_pos (hxy.trans hyz)]
              exact ih ys2 zs2 h1 h2
            · rw [if_neg hyz] at h2
              have hlt : y.toNat < z.toNat := of_decide_eq_true h2
              rw [if_neg (show ¬ x.toNat = z.toNat from by omega)]
              exact decide_eq_true (show x.toNat < z.toNat from by omega)
          · rw [if_neg hxy] at h1
            have hlt : x.toNat < y.toNat := of_decide_eq_true h1
            by_cases hyz : y.toNat = z.toNat
            · rw [if_neg (show ¬ x.toNat = z.toNat from by omega)]
              exact decide_eq_true (show x.toNat < z.toNat from by omega)
            · rw [if_neg hyz] at h2
              have hlt2 : y.toNat < z.toNat := of_decide_eq_true h2
              rw [if_neg (show ¬ x.toNat = z.toNat from by omega)]
              exact decide_eq_true (show x.toNat < z.toNat from by omega)⟩

/-! ## Claim C4: empty queries -/

/-- Claim C4 counterexample: the whitespace-only query "   " strips to
empty, yet the CLI loop proceeds to embed and search the stripped empty
string and the web app hands the raw whitespace string to the embedder;
no rejection of any kind happens before the embedding call. -/
theorem whitespace_query_reaches_embedder :
    cliStep "   " = QueryAction.search "" ∧ appQuery "   " = some "   " := by
  decide

/-- Claim C4 amended: a query that strips to empty is not rejected and
the embedder is not avoided: the CLI searches with the stripped empty
string, and the web app searches with any nonempty raw string,
unstripped, skipping the search only for the exactly-empty string. -/
theorem empty_query_not_rejected (raw : String) (h : pyStrip raw = "") :
    cliStep raw = QueryAction.search "" ∧
      (raw ≠ "" → appQuery raw = some raw) := by
  constructor
  · simp only [cliStep, h]
    decide
  · intro hne
    simp [appQuery, hne]

/-- Claim C4 witness: the amended statement evaluated at the tab-space
string. -/
theorem empty_query_not_rejected_w :
    pyStrip " \t " = "" ∧
      (cliStep " \t " = QueryAction.search "" ∧
        (" \t " ≠ "" → appQuery " \t " = some " \t ")) :=
  ⟨by decide, empty_query_not_rejected " \t " (by decide)⟩

/-! ## Claim C9: display previews -/

theorem pySplitAux_space_nil (c : Char) (cs : List Char)
    (hc : isPySpace c = true) :
    pySplitAux (c :: cs) [] = pySplitAux cs [] := by
  simp [pySplitAux, hc]

theorem pySplitAux_space_cons (c a : Char) (cs t : List Char)
    (hc : isPySpace c = true) :
    pySplitAux (c :: cs) (a :: t) = (a :: t).reverse :: pySplitAux cs [] := by
  simp [pySplitAux, hc]

theorem pySplitAux_nonspace (c : Char) (cs cur : List Char)
    (hc : isPySpace c = false) :
    pySplitAux (c :: cs) cur = pySplitAux cs (c :: cur) := by
  simp [pySplitAux, hc]

/-- Every word pySplit produces is nonempty and free of whitespace. -/
theorem pySplitAux_good :
    ∀ (l cur : List Char), (∀ c ∈ cur, isPySpace c = false) →
      ∀ w ∈ pySplitAux l cur, w ≠ [] ∧ ∀ c ∈ w, isPySpace c = false := by
  intro l
  induction l with
  | nil =>
    intro cur hcur w hw
    cases cur with
    | nil => simp [pySplitAux] at hw
    | cons a t =>
      simp only [pySplitAux, List.mem_singleton] at hw
      subst hw
      refine ⟨by simp, ?_⟩
      intro c hc
      exact hcur c (List.mem_reverse.mp hc)
  | cons c cs ih =>
    intro cur hcur w hw
    by_cases hc : isPySpace c = true
    · cases cur with
      | nil =>
        rw [pySplitAux_space_nil c cs hc] at hw
        exact ih [] (by simp) w hw
      | cons a t =>
        rw [pySplitAux_space_cons c a cs t hc] at hw
        rcases List.mem_cons.mp hw with h1 | h2
        · subst h1
          refine ⟨by simp, ?_⟩
          intro x hx
          exact hcur x (List.mem_reverse.mp hx)
        · exact ih [] (by simp) w h2
    · rw [pySplitAux_nonspace c cs cur (by simpa using hc)] at hw
      refine ih (c :: cur) ?_ w hw
      intro x hx
      rcases List.mem_cons.mp hx with h1 | h2
      · subst h1; simpa using hc
      · exact hcur x h2

/-- Every character of a space-join comes from a word or is the single
joining space. -/
theorem mem_joinWords :
    ∀ (ws : List (List Char)) (c : Char), c ∈ joinWords ws →
      (∃ w ∈ ws, c ∈ w) ∨ c = ' ' := by
  intro ws
  induction ws with
  | nil => intro c hc; simp [joinWords] at hc
  | cons w rest ih =>
    intro c hc
    cases rest with
    | nil =>
      left
      exact ⟨w, by simp, by simpa [joinWords] using hc⟩
    | cons w2 r2 =>
      simp only [joinWords] at hc
      rcases List.mem_append.mp hc with h1 | h2
      · left; exact ⟨w, by simp, h1⟩
      · rcases List.mem_cons.mp h2 with h3 | h4
        · right; exact h3
        · rcases ih c h4 with ⟨w3, hw3, hcw⟩ | h5
          · left; exact ⟨w3, by simp [hw3], hcw⟩
          · right; exact h5

theorem joinWords_head (w : List Char) (ws : List (List Char)) (hw : w ≠ []) :
    (joinWords (w :: ws)).head? = w.head? := by
  cases ws with
  | nil => simp [joinWords]
  | cons w2 r2 =>
    cases w with
    | nil => exact absurd rfl hw
    | cons a t => simp [joinWords]

theorem chain'_of_all_nonspace :
    ∀ (l : List Char), (∀ c ∈ l, isPySpace c = false) →
      l.Chain' noTwoSpaces := by
  intro l
  induction l with
  | nil => intro _; simp
  | cons a t ih =>
    intro h
    cases t with
    | nil => simp
    | cons b t2 =>
      rw [List.chain'_cons]
      refine ⟨?_, ih ?_⟩
      · have ha := h a (by simp)
        unfold noTwoSpaces
        simp [ha]
      · intro c hc
        exact h c (by simp [hc])

/-- Joining nonempty whitespace-free words with single spaces yields a
text in which no two adjacent characters are both whitespace. -/
theorem joinWords_chain' :
    ∀ (ws : List (List Char)),
      (∀ w ∈ ws, w ≠ [] ∧ ∀ c ∈ w, isPySpace c = false) →
      (joinWords ws).Chain' noTwoSpaces := by
  intro ws
  induction ws with
  | nil => intro _; simp [joinWords]
  | cons w rest ih =>
    intro h
    have hw := h w (by simp)
    cases rest with
    | nil =>
      simpa [joinWords] using chain'_of_all_nonspace w hw.2
    | cons w2 r2 =>
      have hrest : ∀ v ∈ w2 :: r2, v ≠ [] ∧ ∀ c ∈ v, isPySpace c = false := by
        intro v hv
        exact h v (by simp [hv])
      have h2 := hrest w2 (by simp)
      simp only [joinWords]
      rw [List.chain'_append]
      refine ⟨chain'_of_all_nonspace w hw.2, ?_, ?_⟩
      · rw [List.chain'_cons']
        constructor
        · intro y hy
          rw [joinWords_head w2 r2 h2.1] at hy
          have hy2 : y ∈ w2 := List.mem_of_mem_head? hy
          have hyn := h2.2 y hy2
          unfold noTwoSpaces
          simp [hyn]
        · exact ih hrest
      · intro x hx _ _
        have hx2 : x ∈ w := List.mem_of_mem_getLast? hx
        have hxn := hw.2 x hx2
        unfold noTwoSpaces
        simp [hxn]

theorem pySplitAux_spaces :
    ∀ (sp : List Char), (∀ c ∈ sp, isPySpace c = true) →
      ∀ cur, pySplitAux sp cur = pySplitAux [] cur := by
  intro sp
  induction sp with
  | nil => intro _ cur; rfl
  | cons c rest ih =>
    intro h cur
    have hc : isPySpace c = true := h c (by simp)
    have hrest : ∀ x ∈ rest, isPySpace x = true := by
      intro x hx
      exact h x (by simp [hx])
    cases cur with
    | nil =>
      rw [pySplitAux_space_nil c rest hc, ih hrest []]
    | cons a t =>
      rw [pySplitAux_space_cons c a rest t hc, ih hrest []]
      rfl

/-- Trailing whitespace never contributes a word. -/
theorem pySplitAux_append_spaces :
    ∀ (l sp : List Char), (∀ c ∈ sp, isPySpace c = true) →
      ∀ cur, pySplitAux (l ++ sp) cur = pySplitAux l cur := by
  intro l
  induction l with
  | nil =>
    intro sp h cur
    simpa using pySplitAux_spaces sp h cur
  | cons c cs ih =>
    intro sp h cur
    rw [List.cons_append]
    by_cases hc : isPySpace c = true
    · cases cur with
      | nil =>
        rw [pySplitAux_space_nil c (cs ++ sp) hc, pySplitAux_space_nil c cs hc]
        exact ih sp h []
      | cons a t =>
        rw [pySplitAux_space_cons c a (cs ++ sp) t hc,
          pySplitAux_space_cons c a cs t hc, ih sp h []]
    · have hc2 : isPySpace c = false := by simpa using hc
      rw [pySplitAux_nonspace c (cs ++ sp) cur hc2,
        pySplitAux_nonspace c cs cur hc2]
      exact ih sp h (c :: cur)

/-- Leading whitespace never contributes a word. -/
theorem pySplitAux_dropWhile (l : List Char) :
    pySplitAux (l.dropWhile isPySpace) [] = pySplitAux l [] := by
  induction l with
  | nil => rfl
  | cons c cs ih =>
    by_cases hc : isPySpace c = true
    · rw [List.dropWhile_cons, if_pos hc, ih, pySplitAux_space_nil c cs hc]
    · rw [List.dropWhile_cons, if_neg (by simp [hc])]

/-- Splitting ignores leading and trailing whitespace, so the redundant
strip inside snippet changes nothing. -/
theorem pySplit_strip (s : String) : pySplit (pyStrip s) = pySplit s := by
  show pySplitAux ((((s.data.dropWhile isPySpace).reverse.dropWhile
    isPySpace).reverse)) [] = pySplitAux s.data []
  set l := s.data.dropWhile isPySpace with hl
  have hsplit :
      (l.reverse.dropWhile isPySpace).reverse ++
        (l.reverse.takeWhile isPySpace).reverse = l := by
    rw [← List.reverse_append, List.takeWhile_append_dropWhile,
      List.reverse_reverse]
  have hsp : ∀ c ∈ (l.reverse.takeWhile isPySpace).reverse,
      isPySpace c = true := by
    intro c hc
    exact List.mem_takeWhile_imp (List.mem_reverse.mp hc)
  calc pySplitAux ((l.reverse.dropWhile isPySpace).reverse) []
      = pySplitAux ((l.reverse.dropWhile isPySpace).reverse ++
          (l.reverse.takeWhile isPySpace).reverse) [] :=
        (pySplitAux_append_spaces _ _ hsp []).symm
    _ = pySplitAux l [] := by rw [hsplit]
    _ = pySplitAux s.data [] := pySplitAux_dropWhile s.data

/-- The web snippet is exactly the preview transformation the
specification describes. -/
theorem snippet_eq_specPreview (text : String) (n : Nat) :
    snippet text n = specPreview n text := by
  unfold snippet specPreview
  rw [pySplit_strip]

/-- Claim C9 counterexample: the CLI result loop is also a display
preview of returned document text, and on the text "a  b" it does not
collapse the internal whitespace run, so it differs from the collapsing
280-character preview transformation the claim describes for every
returned document text. -/
theorem cli_preview_not_collapsing :
    cliPreview "a  b" ≠ specPreview 280 "a  b" := by
  decide

/-- Claim C9 amended: the web snippet implements exactly the claimed
transformation (collapse whitespace runs, truncate to 280 characters
with an ellipsis only when the collapsed text is longer); its collapsed
text never has two adjacent whitespace characters and every character is
either non-whitespace or the single joining space; the CLI preview
instead returns the raw text unchanged up to 160 characters and
truncates the raw text at 160 with three dots beyond that, collapsing
nothing; and displaying results never mutates the stored documents. -/
theorem preview_display_only (text : String) (store : BuildOutput)
    (q : List Int) (k : Nat) :
    appPreview text = specPreview 280 text ∧
    (joinWords (pySplit text)).Chain' noTwoSpaces ∧
    (∀ c ∈ joinWords (pySplit text), isPySpace c = false ∨ c = ' ') ∧
    (text.data.length ≤ 160 → cliPreview text = text) ∧
    (160 < text.data.length →
      cliPreview text = ⟨text.data.take 160⟩ ++ "...") ∧
    (displayStep store q k).2 = store := by
  refine ⟨snippet_eq_specPreview text 280, ?_, ?_, ?_, ?_, rfl⟩
  · exact joinWords_chain' _ (pySplitAux_good text.data [] (by simp))
  · intro c hc
    rcases mem_joinWords _ c hc with ⟨w, hw, hcw⟩ | h
    · exact Or.inl ((pySplitAux_good text.data [] (by simp) w hw).2 c hcw)
    · exact Or.inr h
  · intro hle
    unfold cliPreview
    rw [if_neg (by omega), List.take_of_length_le hle]
    apply String.ext
    simp
  · intro hg
    unfold cliPreview
    rw [if_pos hg]

/-- Claim C9 witness: the amended statement evaluated at a concrete
short text and trivial store. -/
theorem preview_display_only_w :
    appPreview "x y" = specPreview 280 "x y" ∧
      ("x y".data.length ≤ 160 → cliPreview "x y" = "x y") :=
  ⟨(preview_display_only "x y" ⟨[], [], []⟩ [] 0).1,
    (preview_display_only "x y" ⟨[], [], []⟩ [] 0).2.2.2.1⟩

/-! ## Claims C1 and C2: ordering, tie-breaking and padding of search -/

/-- The row ids tagged onto the scored rows are pairwise distinct. -/
theorem enumHits_ids_nodup (xb : List (List Int)) (q : List Int) :
    ((enumHits xb q).map Hit.id).Nodup := by
  unfold enumHits
  rw [List.map_map]
  have h1 : (Hit.id ∘ fun p : Nat × List Int =>
      (⟨Score.val (dot q p.2), (p.1 : Int)⟩ : Hit)) =
      (fun n : Nat => (n : Int)) ∘ Prod.fst := rfl
  rw [h1, ← List.map_map, List.enum_map_fst]
  exact (List.nodup_range _).map Int.ofNat_injective

/-- The sorted scored rows are strictly ordered: strictly descending by
score, ties strictly ascending by row id. -/
theorem sortedHits_pairwise_lt (xb : List (List Int)) (q : List Int) :
    (List.insertionSort hitLE (enumHits xb q)).Pairwise hitLT := by
  have hs : (List.insertionSort hitLE (enumHits xb q)).Pairwise hitLE :=
    List.sorted_insertionSort hitLE (enumHits xb q)
  have hperm := List.perm_insertionSort hitLE (enumHits xb q)
  have hnd : ((List.insertionSort hitLE (enumHits xb q)).map Hit.id).Nodup :=
    ((hperm.map Hit.id).nodup_iff).mpr (enumHits_ids_nodup xb q)
  have hne : (List.insertionSort hitLE (enumHits xb q)).Pairwise
      (fun a b => a.id ≠ b.id) := List.pairwise_map.mp hnd
  refine (hs.and hne).imp ?_
  intro a b hab
  rcases hab.1 with h1 | ⟨h2, h3⟩
  · exact Or.inl h1
  · exact Or.inr ⟨h2, lt_of_le_of_ne h3 hab.2⟩

/-- faiss always hands back exactly k result slots. -/
theorem faissSearch_length (xb : List (List Int)) (q : List Int) (k : Nat) :
    (faissSearch xb q k).length = k := by
  unfold faissSearch
  rw [List.length_append, List.length_take, List.length_insertionSort,
    List.length_replicate]
  unfold enumHits
  rw [List.length_map, List.enum_length]
  omega

/-- Beyond the stored rows, every result slot is the padding hit. -/
theorem faissSearch_drop_pad (xb : List (List Int)) (q : List Int) (k : Nat) :
    (faissSearch xb q k).drop xb.length =
      List.replicate (k - xb.length) padHit := by
  unfold faissSearch
  have hlen : (List.insertionSort hitLE (enumHits xb q)).length = xb.length := by
    rw [List.length_insertionSort]
    unfold enumHits
    rw [List.length_map, List.enum_length]
  rcases le_or_lt k xb.length with hk | hk
  · have h0 : k - xb.length = 0 := by omega
    rw [h0, List.replicate_zero, List.append_nil]
    apply List.drop_eq_nil_of_le
    rw [List.length_take]
    omega
  · have htk : (List.take k (List.insertionSort hitLE (enumHits xb q))).length
        = xb.length := by
      rw [List.length_take]
      omega
    rw [← htk, List.drop_left]

/-- The non-padding slots are the first min(k, N) slots, and they are the
k best scored rows in strictly descending score order with ties broken
towards the lower row id. -/
theorem faissSearch_take_strict (xb : List (List Int)) (q : List Int)
    (k : Nat) :
    ((faissSearch xb q k).take (min k xb.length)).Pairwise hitLT := by
  unfold faissSearch
  have htk : (List.take k (List.insertionSort hitLE (enumHits xb q))).length
      = min k xb.length := by
    rw [List.length_take, List.length_insertionSort]
    unfold enumHits
    rw [List.length_map, List.enum_length]
  rw [← htk, List.take_left]
  exact List.Pairwise.sublist (List.take_sublist _ _)
    (sortedHits_pairwise_lt xb q)

/-- Claim C1 counterexample: on a store holding one row, searching with
k = 3 returns two identical padding slots (equal sentinel score, equal
row id -1), so the full returned sequence is not strictly ordered by
descending score with strictly ascending row ids on ties. -/
theorem search_results_not_strictly_ordered :
    ¬ (faissSearch [[1]] [1] 3).Pairwise hitLT := by
  decide

/-- Claim C1 amended: for every store, query and k, the non-padding
results (the first min(k, N) slots) are strictly ordered, descending by
score with ties broken by strictly ascending row id; every slot past the
N stored rows is the identical padding hit (row id -1, sentinel score),
so the strict ordering cannot extend over the padding when k exceeds
N + 1. -/
theorem search_sorted_desc_tiebreak (xb : List (List Int)) (q : List Int)
    (k : Nat) :
    ((faissSearch xb q k).take (min k xb.length)).Pairwise hitLT ∧
      (faissSearch xb q k).drop xb.length =
        List.replicate (k - xb.length) padHit :=
  ⟨faissSearch_take_strict xb q k, faissSearch_drop_pad xb q k⟩

/-- Claim C2 counterexample: a store with N = 1 rows searched with k = 3
returns 3 result slots, not 1; and a search over an empty store returns
2 padding slots for k = 2, not an empty sequence. -/
theorem search_no_clamp :
    (faissSearch [[1]] [1] 3).length = 3 ∧ faissSearch [] [1] 2 ≠ [] := by
  decide

/-- Claim C2 amended: search never clamps: it returns exactly k result
slots for every k and every store, the slots past the N stored rows all
being the padding hit with row id -1; on an empty store every slot is
padding, so the result is nonempty whenever k is. -/
theorem search_returns_k_padded (xb : List (List Int)) (q : List Int)
    (k : Nat) :
    (faissSearch xb q k).length = k ∧
      (faissSearch xb q k).drop xb.length =
        List.replicate (k - xb.length) padHit ∧
      (xb = [] → faissSearch xb q k = List.replicate k padHit) := by
  refine ⟨faissSearch_length xb q k, faissSearch_drop_pad xb q k, ?_⟩
  intro h
  subst h
  simp [faissSearch, enumHits]

/-- Claim C2 witness: the amended statement evaluated on the empty store
with k = 2. -/
theorem search_returns_k_padded_w :
    (faissSearch [] [1] 2).length = 2 ∧
      faissSearch [] [1] 2 = List.replicate 2 padHit :=
  ⟨(search_returns_k_padded [] [1] 2).1,
    (search_returns_k_padded [] [1] 2).2.2 rfl⟩

/-! ## Claim C10: k = 3 CLI rendering on small stores -/

/-- The row ids of the scored rows are exactly 0, 1, ..., N-1. -/
theorem enumHits_map_id (xb : List (List Int)) (q : List Int) :
    (enumHits xb q).map Hit.id =
      (List.range xb.length).map (fun n : Nat => (n : Int)) := by
  unfold enumHits
  rw [List.map_map]
  have h1 : (Hit.id ∘ fun p : Nat × List Int =>
      (⟨Score.val (dot q p.2), (p.1 : Int)⟩ : Hit)) =
      (fun n : Nat => (n : Int)) ∘ Prod.fst := rfl
  rw [h1, ← List.map_map, List.enum_map_fst]

/-- Python docs[-1] is the last stored document. -/
theorem pyGetItem_neg_one (docs : List String) (h : 1 ≤ docs.length) :
    pyGetItem docs (-1) = docs.getLast? := by
  simp only [pyGetItem]
  have e1 : (if (-1 : Int) < 0 then (docs.length : Int) + -1 else -1) =
      (docs.length : Int) + -1 := by norm_num
  rw [e1]
  have hp : (0 : Int) ≤ (docs.length : Int) + -1 := by omega
  rw [if_pos hp]
  have ht : ((docs.length : Int) + -1).toNat = docs.length - 1 := by omega
  rw [ht, List.get?_eq_getElem?, ← List.getLast?_eq_getElem?]

/-- Claim C10: the CLI always asks faiss for k = 3; on a store with
1 ≤ N < 3 rows the missing slots come back as padding with row id -1,
Python renders docs[-1] (the last stored document) for each padded slot
instead of omitting it, and the rendered result list therefore shows the
preview of the last stored document at least twice per query. -/
theorem cli_small_store_repeats_last (xb : List (List Int))
    (docs : List String) (q : List Int) (h1 : 1 ≤ xb.length)
    (h2 : xb.length < 3) (hd : docs.length = xb.length) :
    (faissSearch xb q 3).drop xb.length =
      List.replicate (3 - xb.length) padHit ∧
    pyGetItem docs (-1) = docs.getLast? ∧
    2 ≤ (cliRendered xb docs q).count (docs.getLast?.map cliPreview) := by
  have hlen : (List.insertionSort hitLE (enumHits xb q)).length = xb.length := by
    rw [List.length_insertionSort]
    unfold enumHits
    rw [List.length_map, List.enum_length]
  have hneg := pyGetItem_neg_one docs (by omega)
  refine ⟨faissSearch_drop_pad xb q 3, hneg, ?_⟩
  have hmem : ((xb.length - 1 : Nat) : Int) ∈ (enumHits xb q).map Hit.id := by
    rw [enumHits_map_id]
    exact List.mem_map.mpr ⟨xb.length - 1, List.mem_range.mpr (by omega), rfl⟩
  obtain ⟨hit, hhit, hid⟩ := List.mem_map.mp hmem
  have hsortmem : hit ∈ List.insertionSort hitLE (enumHits xb q) := by
    rw [List.mem_insertionSort]
    exact hhit
  have hA : List.take 3 (List.insertionSort hitLE (enumHits xb q)) =
      List.insertionSort hitLE (enumHits xb q) :=
    List.take_of_length_le (by omega)
  have hfhit : (pyGetItem docs hit.id).map cliPreview =
      docs.getLast?.map cliPreview := by
    rw [hid]
    simp only [pyGetItem]
    have hn : ¬ (((xb.length - 1 : Nat) : Int) < 0) := by omega
    rw [if_neg hn]
    have hp : (0 : Int) ≤ ((xb.length - 1 : Nat) : Int) := by omega
    rw [if_pos hp]
    have ht : ((xb.length - 1 : Nat) : Int).toNat = docs.length - 1 := by omega
    rw [ht, List.get?_eq_getElem?, ← List.getLast?_eq_getElem?]
  have hfpad : (pyGetItem docs padHit.id).map cliPreview =
      docs.getLast?.map cliPreview := by
    show (pyGetItem docs (-1)).map cliPreview = _
    rw [hneg]
  have hone : 0 < ((List.take 3 (List.insertionSort hitLE (enumHits xb q))).map
      (fun h => (pyGetItem docs h.id).map cliPreview)).count
      (docs.getLast?.map cliPreview) := by
    rw [List.count_pos_iff]
    exact List.mem_map.mpr ⟨hit, by rw [hA]; exact hsortmem, hfhit⟩
  unfold cliRendered faissSearch
  rw [List.map_append, List.count_append, List.map_replicate, hfpad,
    List.count_replicate_self]
  omega

/-- Claim C10 witness: a store with a single document "d" searched by
the CLI renders the preview of "d" at least twice. -/
theorem cli_small_store_repeats_last_w :
    (1 ≤ ([[(1 : Int)]]).length ∧ ([[(1 : Int)]]).length < 3 ∧
      (["d"] : List String).length = ([[(1 : Int)]]).length) ∧
    ((faissSearch [[(1 : Int)]] [1] 3).drop ([[(1 : Int)]]).length =
      List.replicate (3 - ([[(1 : Int)]]).length) padHit ∧
    pyGetItem ["d"] (-1) = (["d"] : List String).getLast? ∧
    2 ≤ (cliRendered [[(1 : Int)]] ["d"] [1]).count
      ((["d"] : List String).getLast?.map cliPreview)) :=
  ⟨⟨by decide, by decide, by decide⟩,
    cli_small_store_repeats_last [[(1 : Int)]] ["d"] [1]
      (by decide) (by decide) (by decide)⟩

/-! ## Claims C7 and C8: corpus ingestion -/

/-- The build aborts exactly when the glob listing is empty or every
listed file strips to empty. -/
theorem build_abort_iff (embed : List String → List (List Int))
    (files : List (String × String)) :
    (∃ e, buildIndex embed files = Except.error e) ↔
      (files = [] ∨ ∀ f ∈ files, pyStrip f.2 = "") := by
  constructor
  · rintro ⟨e, he⟩
    revert he
    unfold buildIndex
    by_cases h1 : (List.insertionSort pathLE files).isEmpty
    · intro _
      left
      have h0 : List.insertionSort pathLE files = [] :=
        List.isEmpty_iff.mp h1
      have hp := List.perm_insertionSort pathLE files
      rw [h0] at hp
      exact (List.nil_perm.mp hp)
    · rw [if_neg h1]
      by_cases h2 : ((List.insertionSort pathLE files).filterMap
          keepFile).isEmpty
      · intro _
        right
        intro f hf
        have hf2 : f ∈ List.insertionSort pathLE files :=
          (List.perm_insertionSort pathLE files).mem_iff.mpr hf
        have hk : (List.insertionSort pathLE files).filterMap keepFile = [] :=
          List.isEmpty_iff.mp h2
        have hnone := List.filterMap_eq_nil_iff.mp hk f hf2
        by_contra hne
        unfold keepFile at hnone
        rw [if_neg hne] at hnone
        exact Option.some_ne_none _ hnone
      · rw [if_neg h2]
        intro he
        exact absurd he (by simp)
  · intro h
    rcases h with h | h
    · subst h
      exact ⟨BuildError.noTxtFiles, rfl⟩
    · by_cases h1 : (List.insertionSort pathLE files).isEmpty
      · refine ⟨BuildError.noTxtFiles, ?_⟩
        unfold buildIndex
        rw [if_pos h1]
      · refine ⟨BuildError.emptyDocs, ?_⟩
        unfold buildIndex
        rw [if_neg h1]
        have hk : (List.insertionSort pathLE files).filterMap keepFile = [] := by
          apply List.filterMap_eq_nil_iff.mpr
          intro pc hpc
          have hs : pyStrip pc.2 = "" :=
            h pc ((List.perm_insertionSort pathLE files).mem_iff.mp hpc)
          unfold keepFile
          rw [if_pos hs]
        rw [if_pos (by rw [hk]; rfl)]

/-- Claim C7: the build skips files that strip to empty rather than
failing on them, aborts exactly when the listing is empty or zero
documents survive the skipping, and the two-file scenario with one empty
and one nonempty file succeeds with one stored document and one skipped
file. -/
theorem build_skip_and_empty_corpus (embed : List String → List (List Int)) :
    (∀ files : List (String × String),
      (∃ e, buildIndex embed files = Except.error e) ↔
        (files = [] ∨ ∀ f ∈ files, pyStrip f.2 = "")) ∧
    buildIndex embed [("data/a.txt", ""), ("data/b.txt", "hi")] =
      Except.ok ⟨embed ["hi"], ["hi"], ["b.txt"]⟩ ∧
    skippedCount [("data/a.txt", ""), ("data/b.txt", "hi")] = 1 := by
  refine ⟨build_abort_iff embed, ?_, by decide⟩
  unfold buildIndex
  rw [show List.insertionSort pathLE
      [("data/a.txt", ""), ("data/b.txt", "hi")] =
      [("data/a.txt", ""), ("data/b.txt", "hi")] from by decide]
  rfl

/-- Both comparisons holding forces equal paths. -/
theorem pathLE_antisymm_key {a b : String × String}
    (h1 : pathLE a b) (h2 : pathLE b a) : a.1 = b.1 := by
  unfold pathLE at h1 h2
  suffices hs : ∀ xs ys : List Char,
      lexLeB xs ys = true → lexLeB ys xs = true → xs = ys from
    String.ext (hs _ _ h1 h2)
  intro xs
  induction xs with
  | nil =>
    intro ys h1 h2
    cases ys with
    | nil => rfl
    | cons y ys2 => exact absurd h2 (by simp [lexLeB])
  | cons x xs2 ih =>
    intro ys h1 h2
    cases ys with
    | nil => exact absurd h1 (by simp [lexLeB])
    | cons y ys2 =>
      simp only [lexLeB] at h1 h2
      by_cases hxy : x.toNat = y.toNat
      · rw [if_pos hxy] at h1
        rw [if_pos hxy.symm] at h2
        have hc : x = y := Char.eq_of_val_eq (UInt32.ext hxy)
        rw [hc, ih ys2 h1 h2]
      · rw [if_neg hxy] at h1
        have l1 : x.toNat < y.toNat := of_decide_eq_true h1
        rw [if_neg (show ¬ y.toNat = x.toNat from by omega)] at h2
        have l2 : y.toNat < x.toNat := of_decide_eq_true h2
        omega

/-- Two sorted permutations of a listing with pairwise distinct paths
are identical. -/
theorem sorted_perm_eq :
    ∀ {l₁ l₂ : List (String × String)}, l₁.Perm l₂ →
      l₁.Pairwise pathLE → l₂.Pairwise pathLE →
      (l₁.map Prod.fst).Nodup → l₁ = l₂ := by
  intro l₁
  induction l₁ with
  | nil =>
    intro l₂ hp _ _ _
    exact (List.nil_perm.mp hp).symm
  | cons a t ih =>
    intro l₂ hp hs₁ hs₂ hnd
    cases l₂ with
    | nil => exact absurd (List.perm_nil.mp hp) (by simp)
    | cons b u =>
      have hab : a = b := by
        have hbmem : b ∈ a :: t := hp.mem_iff.mpr (by simp)
        rcases List.mem_cons.mp hbmem with hcase | hcase
        · exact hcase.symm
        · have hamem : a ∈ b :: u := hp.mem_iff.mp (by simp)
          rcases List.mem_cons.mp hamem with hcase2 | hcase2
          · exact hcase2
          · have hle1 : pathLE a b := (List.pairwise_cons.mp hs₁).1 b hcase
            have hle2 : pathLE b a := (List.pairwise_cons.mp hs₂).1 a hcase2
            have hkey : a.1 = b.1 := pathLE_antisymm_key hle1 hle2
            exfalso
            have hmem2 : a.1 ∈ t.map Prod.fst := by
              rw [hkey]
              exact List.mem_map.mpr ⟨b, hcase, rfl⟩
            exact (List.nodup_cons.mp (by simpa using hnd)).1 hmem2
      subst hab
      have hp2 : t.Perm u := hp.cons_inv
      have heq := ih hp2 (List.pairwise_cons.mp hs₁).2
        (List.pairwise_cons.mp hs₂).2
        (List.nodup_cons.mp (by simpa using hnd)).2
      rw [heq]

/-- Claim C8: the build lists files in sorted lexicographic path order,
and over an unchanged file set (any two listing orders of the same
files, paths pairwise distinct) the whole build output is identical,
row assignment included. -/
theorem build_listing_deterministic (embed : List String → List (List Int))
    (l1 l2 : List (String × String)) (hp : l1.Perm l2)
    (hnd : (l1.map Prod.fst).Nodup) :
    (List.insertionSort pathLE l1).Pairwise pathLE ∧
      buildIndex embed l1 = buildIndex embed l2 := by
  have hs1 : (List.insertionSort pathLE l1).Pairwise pathLE :=
    List.sorted_insertionSort pathLE l1
  have hs2 : (List.insertionSort pathLE l2).Pairwise pathLE :=
    List.sorted_insertionSort pathLE l2
  have hperm12 : (List.insertionSort pathLE l1).Perm
      (List.insertionSort pathLE l2) :=
    (List.perm_insertionSort pathLE l1).trans
      (hp.trans (List.perm_insertionSort pathLE l2).symm)
  have hnd1 : ((List.insertionSort pathLE l1).map Prod.fst).Nodup :=
    (((List.perm_insertionSort pathLE l1).map Prod.fst).nodup_iff).mpr hnd
  have hsorteq := sorted_perm_eq hperm12 hs1 hs2 hnd1
  refine ⟨hs1, ?_⟩
  unfold buildIndex
  rw [hsorteq]

/-- Claim C8 witness: two listing orders of the same two files produce
the same build output. -/
theorem build_listing_deterministic_w :
    (([("data/b.txt", "y"), ("data/a.txt", "x")] :
        List (String × String)).Perm
      [("data/a.txt", "x"), ("data/b.txt", "y")] ∧
      (([("data/b.txt", "y"), ("data/a.txt", "x")] :
        List (String × String)).map Prod.fst).Nodup) ∧
    buildIndex (fun ts => ts.map (fun _ => [(1 : Int)]))
        [("data/b.txt", "y"), ("data/a.txt", "x")] =
      buildIndex (fun ts => ts.map (fun _ => [(1 : Int)]))
        [("data/a.txt", "x"), ("data/b.txt", "y")] :=
  ⟨⟨by decide, by decide⟩,
    (build_listing_deterministic (fun ts => ts.map (fun _ => [(1 : Int)]))
      [("data/b.txt", "y"), ("data/a.txt", "x")]
      [("data/a.txt", "x"), ("data/b.txt", "y")]
      (by decide) (by decide)).2⟩

/-! ## Claim C5: persistence is not staged or atomic -/

/-- Claim C5 counterexample: during a concrete build persist, the
artifacts directory passes through a state holding only the index file,
which is neither the empty state nor the complete three-artifact state,
so artifact publication is not all-or-nothing. -/
theorem persist_intermediate_state_observable :
    ¬ (∀ s ∈ persistTrace ⟨[[1]], ["a"], ["m"]⟩,
        s = emptyLoc ∨ s = fullLoc ⟨[[1]], ["a"], ["m"]⟩) := by
  decide

/-- Claim C5 amended: the build writes the three artifacts sequentially,
in place, in the order faiss.index, docs.json, meta.json, with no
staging location and no atomic publish: stopping after one write leaves
only the index artifact observable and stopping after two leaves the
index and document artifacts, each a state that is neither empty nor
complete. -/
theorem persist_sequential_no_staging (out : BuildOutput) :
    persistTrace out = [emptyLoc,
      ⟨some (encodeIndex out.index), none, none⟩,
      ⟨some (encodeIndex out.index), some out.docs, none⟩,
      fullLoc out] ∧
    afterWrites out 1 ≠ emptyLoc ∧ afterWrites out 1 ≠ fullLoc out ∧
    afterWrites out 2 ≠ emptyLoc ∧ afterWrites out 2 ≠ fullLoc out := by
  refine ⟨rfl, ?_, ?_, ?_, ?_⟩ <;>
    simp [afterWrites, persistTrace, emptyLoc, fullLoc]

/-! ## Claim C6: loading is unvalidated -/

/-- Claim C6 counterexample: an artifact set whose three files hold 1,
2 and 0 rows loads successfully through the app loader with no error,
and the CLI loader succeeds with meta.json entirely absent, so load
neither enforces equal row counts nor requires all three artifacts. -/
theorem load_accepts_mismatched_rows :
    appLoad ⟨some ⟨1, 1, [1]⟩, some ["a", "b"], some []⟩ =
      Except.ok ⟨[[1]], ["a", "b"], []⟩ ∧
    ¬ (([[(1 : Int)]]).length = (["a", "b"] : List String).length) ∧
    cliLoad ⟨some ⟨1, 1, [1]⟩, some ["a"], none⟩ =
      Except.ok ([[1]], ["a"]) :=
  ⟨rfl, by decide, rfl⟩

/-- Claim C6 amended: the app loader errors exactly when one of the
three artifacts it opens is absent and the CLI loader exactly when the
index or the document list is absent (meta.json is never opened by the
CLI), each with the underlying file error rather than a dedicated type;
on success the parsed contents are returned exactly as read, with no
row-count comparison, so stores with unequal sequence lengths load
without complaint. -/
theorem load_unvalidated (loc : ArtifactLoc) :
    ((∃ e, appLoad loc = Except.error e) ↔
      loc.indexFile = none ∨ loc.docsFile = none ∨ loc.metaFile = none) ∧
    ((∃ e, cliLoad loc = Except.error e) ↔
      loc.indexFile = none ∨ loc.docsFile = none) ∧
    (∀ f docs meta, loc = ⟨some f, some docs, some meta⟩ →
      appLoad loc = Except.ok ⟨decodeIndex f, docs, meta⟩) := by
  rcases loc with ⟨i, d, m⟩
  cases i <;> cases d <;> cases m <;> simp [appLoad, cliLoad] <;>
    exact ⟨LoadError.missingFile, trivial⟩

/-- Claim C6 witness: the amended statement evaluated at a present,
well-formed artifact set. -/
theorem load_unvalidated_w :
    appLoad ⟨some ⟨1, 1, [1]⟩, some ["a"], some ["m"]⟩ =
      Except.ok ⟨decodeIndex ⟨1, 1, [1]⟩, ["a"], ["m"]⟩ :=
  (load_unvalidated ⟨some ⟨1, 1, [1]⟩, some ["a"], some ["m"]⟩).2.2
    ⟨1, 1, [1]⟩ ["a"] ["m"] rfl

/-! ## Claim C3: build, persist, load round-trip -/

/-- Rebuilding the row matrix from its row-major flat serialization
recovers the rows exactly whenever the matrix is rectangular. -/
theorem unflatten_flatten :
    ∀ (rows : List (List Int)) (d : Nat), (∀ v ∈ rows, v.length = d) →
      unflatten d rows.length rows.flatten = rows := by
  intro rows
  induction rows with
  | nil => intro d _; rfl
  | cons v t ih =>
    intro d h
    have hv : v.length = d := h v (by simp)
    show unflatten d (t.length + 1) ((v :: t).flatten) = v :: t
    rw [show (v :: t).flatten = v ++ t.flatten from by simp]
    simp only [unflatten]
    congr 1
    · rw [← hv, List.take_left]
    · rw [← hv, List.drop_left, hv]
      exact ih d (fun w hw => h w (by simp [hw]))

/-- faiss.read_index recovers exactly what faiss.write_index stored. -/
theorem decode_encode (rows : List (List Int))
    (h : ∀ v ∈ rows, v.length = matrixDim rows) :
    decodeIndex (encodeIndex rows) = rows := by
  unfold decodeIndex encodeIndex
  exact unflatten_flatten rows (matrixDim rows) h

/-- Claim C3: loading the persisted artifact set written by a successful
build yields exactly the store the build constructed in memory, with no
re-normalization and no reordering, so every search against the loaded
store returns the same scores in the same row order as against the
in-memory store. -/
theorem load_after_build_roundtrip (embed : List String → List (List Int))
    (files : List (String × String)) (out : BuildOutput)
    (hok : buildIndex embed files = Except.ok out)
    (hrect : ∀ v ∈ out.index, v.length = matrixDim out.index) :
    appLoad (fullLoc out) = Except.ok out ∧
    ∀ q k, (appLoad (fullLoc out)).map (fun s => faissSearch s.index q k) =
      Except.ok (faissSearch out.index q k) := by
  have hload : appLoad (fullLoc out) = Except.ok out := by
    simp [appLoad, fullLoc, decode_encode out.index hrect]
  refine ⟨hload, ?_⟩
  intro q k
  rw [hload]
  rfl

/-- Claim C3 witness: a one-document corpus built with a concrete
embedder persists and loads back to the identical store. -/
theorem load_after_build_roundtrip_w :
    (buildIndex (fun ts => ts.map (fun _ => [(1 : Int), 0]))
        [("data/a.txt", "hi")] =
      Except.ok ⟨[[(1 : Int), 0]], ["hi"], ["a.txt"]⟩) ∧
    appLoad (fullLoc ⟨[[(1 : Int), 0]], ["hi"], ["a.txt"]⟩) =
      Except.ok ⟨[[(1 : Int), 0]], ["hi"], ["a.txt"]⟩ := by
  have hok : buildIndex (fun ts => ts.map (fun _ => [(1 : Int), 0]))
      [("data/a.txt", "hi")] =
      Except.ok ⟨[[(1 : Int), 0]], ["hi"], ["a.txt"]⟩ := by
    unfold buildIndex
    rw [show List.insertionSort pathLE [("data/a.txt", "hi")] =
      [("data/a.txt", "hi")] from by decide]
    rfl
  exact ⟨hok,
    (load_after_build_roundtrip (fun ts => ts.map (fun _ => [(1 : Int), 0]))
      [("data/a.txt", "hi")] ⟨[[(1 : Int), 0]], ["hi"], ["a.txt"]⟩
      hok (by decide)).1⟩
